import Mathlib

/-!
Verification of the usb-test service (services/usb-test/src/main.rs).

The development shallowly embeds the endpoint-space allocator
(`alloc_inner`, `dealloc_inner`), the suspend/resume handler, and the two
character-input paths of the dispatch loop.  Machine integers (`u32`) are
modelled as `Nat` with explicit `% 2 ^ 32` wherever the Rust code performs
arithmetic that can wrap in a release build; an `Option` result models a
panic (`assert!` failure) as `none`.  The `BTreeMap<u32, u32>` is modelled
as an association list sorted in ascending key order, which is the order
`BTreeMap::iter` yields.
-/

namespace UsbTest

/-- `START_OFFSET` from main.rs: `0x0048 + 8`. -/
def START_OFFSET : Nat := 0x0048 + 8

/-- `END_OFFSET` from main.rs: `0xFF00`. -/
def END_OFFSET : Nat := 0xFF00

/-- The `BTreeMap<u32, u32>` of allocations, as an ascending assoc list. -/
abbrev Table := List (Nat × Nat)

/-- Keys of the table (the live base offsets). -/
def tableKeys (t : Table) : List Nat := t.map Prod.fst

/-- The length rounding in `alloc_inner`:
`if length & 0xF == 0 then length else (length + 16) & !0xF`, with the
`u32` addition wrapping modulo `2 ^ 32`. -/
def roundUp16 (length : Nat) : Nat :=
  if length % 16 = 0 then length else (length + 16) % 2 ^ 32 / 16 * 16

/-- The first-fit scan loop of `alloc_inner`.  Walks the ascending entry
list with cursor `ao` (named `alloc_offset` in the source).  Returns
`none` when `assert!(offset >= alloc_offset, "allocated regions overlap")`
fires (a panic), `some ao` with the cursor value at the `break` (a
sufficiently large hole) or after the last entry. -/
def scanAllocs : Table → Nat → Nat → Option Nat
  | [], ao, _ => some ao
  | (offset, length) :: rest, ao, requested =>
    let rounded := roundUp16 length
    if offset < ao then none
    else if ao < offset ∧ requested ≤ offset - ao then some ao
    else scanAllocs rest ((offset + rounded) % 2 ^ 32) requested

/-- `BTreeMap::insert` on the sorted assoc list: insert in key order,
replacing the value when the key is already present. -/
def tinsert : Table → Nat → Nat → Table
  | [], k, v => [(k, v)]
  | (k', v') :: rest, k, v =>
    if k < k' then (k, v) :: (k', v') :: rest
    else if k = k' then (k, v) :: rest
    else (k', v') :: tinsert rest k v

/-- `alloc_inner` from main.rs.  Result `none` models a panic of the
overlap assertion inside the scan; `some (res, t)` gives the returned
`Option<u32>` and the table after the call.  The final bounds check
`alloc_offset + requested <= END_OFFSET` is a wrapping `u32` addition. -/
def alloc_inner (allocs : Table) (requested : Nat) : Option (Option Nat × Table) :=
  if requested = 0 then some (none, allocs)
  else
    match scanAllocs allocs START_OFFSET requested with
    | none => none
    | some ao =>
      if (ao + requested) % 2 ^ 32 ≤ END_OFFSET then
        some (some ao, tinsert allocs ao requested)
      else
        some (none, allocs)

/-- `dealloc_inner` from main.rs: `allocs.remove(&offset).is_some()`.
Returns the boolean result together with the table after the call. -/
def dealloc_inner : Table → Nat → Bool × Table
  | [], _ => (false, [])
  | (k, v) :: rest, offset =>
    if offset = k then (true, rest)
    else ((dealloc_inner rest offset).1, (k, v) :: (dealloc_inner rest offset).2)

/-- One allocator call of an interleaved call sequence. -/
inductive AllocOp where
  | alloc (requested : Nat)
  | free (offset : Nat)
deriving DecidableEq

/-- The call's argument is a `u32` value. -/
def validOp : AllocOp → Bool
  | .alloc r => decide (r < 2 ^ 32)
  | .free x => decide (x < 2 ^ 32)

/-- Apply one call to a table; `none` models a panic inside `alloc_inner`. -/
def applyOp (t : Table) : AllocOp → Option Table
  | .alloc r =>
    match alloc_inner t r with
    | none => none
    | some (_, t') => some t'
  | .free x => some (dealloc_inner t x).2

/-- Run a call sequence; `none` as soon as one call panics. -/
def runOps : Table → List AllocOp → Option Table
  | t, [] => some t
  | t, op :: ops =>
    match applyOp t op with
    | none => none
    | some t' => runOps t' ops

/-- A table is reachable when some sequence of `u32`-argument
allocate/free calls starting from the empty table produces it. -/
def Reachable (t : Table) : Prop :=
  ∃ ops : List AllocOp, ops.all validOp = true ∧ runOps [] ops = some t

/-- Observable result of one allocator call. -/
inductive OpResult where
  | allocRes (r : Option Nat)
  | freeRes (b : Bool)
deriving DecidableEq

/-- Run a call sequence collecting each call's return value. -/
def runTrace : Table → List AllocOp → Option (List OpResult × Table)
  | t, [] => some ([], t)
  | t, .alloc r :: ops =>
    match alloc_inner t r with
    | none => none
    | some (res, t') =>
      match runTrace t' ops with
      | none => none
      | some (rs, tf) => some (.allocRes res :: rs, tf)
  | t, .free x :: ops =>
    match dealloc_inner t x with
    | (b, t') =>
      match runTrace t' ops with
      | none => none
      | some (rs, tf) => some (.freeRes b :: rs, tf)

/-- A hardware sub-device of the service: the keyboard driver (`kbd`) and
the USB device core (`usbtest`). -/
inductive SubDev where
  | kbd
  | core
deriving DecidableEq

/-- One observable action of the `Opcode::SuspendResume` handler. -/
inductive SREvent where
  | suspendDev (d : SubDev)
  | suspendUntilResume
  | resumeDev (d : SubDev)
deriving DecidableEq

/-- The order in which the handler suspends the sub-devices:
`kbd.suspend()` then `usbtest.suspend()`. -/
def subDevOrder : List SubDev := [.kbd, .core]

/-- The action trace of the `Opcode::SuspendResume` arm of the dispatch
loop, read off the handler body line by line: `kbd.suspend()`,
`usbtest.suspend()`, `susres.suspend_until_resume(token)`,
`kbd.resume()`, `usbtest.resume()`. -/
def suspendResumeTrace : List SREvent :=
  [.suspendDev .kbd, .suspendDev .core, .suspendUntilResume,
   .resumeDev .kbd, .resumeDev .core]

/-- Rust `core::char::from_u32`: `none` exactly on surrogates and values
above `0x10FFFF` (this is `Nat.isValidChar`). -/
def char_from_u32 (n : Nat) : Option Char :=
  if n.isValidChar then some (Char.ofNat n) else none

/-- The `key` computed by the `Opcode::KeyboardChar` (UART) arm:
`0x7f` is first replaced by `0x08`, the value is truncated `as u32`,
converted by `char::from_u32` and defaulted to the null character by
`unwrap_or`. -/
def uartKey (k : Nat) : Char :=
  (char_from_u32 ((if k = 0x7f then 0x08 else k) % 2 ^ 32)).getD (Char.ofNat 0)

/-- The `Opcode::KeyboardChar` (UART) arm acting on `cmdline`.  Returns
the new buffer and whether a `DoCmd` message was sent to the loop: a null
key does nothing, a carriage return sends `DoCmd`, any other key is pushed
onto the buffer. -/
def uartChar (cmdline : List Char) (k : Nat) : List Char × Bool :=
  if uartKey k ≠ Char.ofNat 0 then
    if uartKey k ≠ Char.ofNat 0xd then (cmdline ++ [uartKey k], false)
    else (cmdline, true)
  else (cmdline, false)

/-- The per-key body of the `Opcode::HandlerTrigger` (key-matrix) arm:
every key other than carriage return is pushed onto `cmdline` verbatim;
carriage return sends `DoCmd`. -/
def matrixChar (cmdline : List Char) (key : Char) : List Char × Bool :=
  if key ≠ Char.ofNat 0xd then (cmdline ++ [key], false) else (cmdline, true)

/-- The `Opcode::DoCmd` arm as far as the buffer is concerned: the
current `cmdline` is the executed command and `cmdline.clear()` runs
afterwards.  Returns (executed command, buffer after the call). -/
def doCmd (cmdline : List Char) : List Char × List Char := (cmdline, [])

/-- One UART character followed, when the character completed a line, by
the self-sent `DoCmd` message.  This models the dispatch loop receiving
the UART character while no other message is queued, so the `DoCmd`
message is the next one processed.  State: (buffer, commands executed so
far). -/
def processUart (st : List Char × List (List Char)) (k : Nat) :
    List Char × List (List Char) :=
  match uartChar st.1 k with
  | (buf, false) => (buf, st.2)
  | (buf, true) =>
    match doCmd buf with
    | (cmd, cleared) => (cleared, st.2 ++ [cmd])

/-- Feed a sequence of raw UART character codes through the loop. -/
def runUart (st : List Char × List (List Char)) (ks : List Nat) :
    List Char × List (List Char) :=
  ks.foldl processUart st

/-! ## Alignment invariant -/

/-- All live base offsets of a table are 16-byte aligned. -/
def AlignedKeys (t : Table) : Prop := ∀ p ∈ t, p.1 % 16 = 0

theorem roundUp16_mod (v : Nat) : roundUp16 v % 16 = 0 := by
  unfold roundUp16
  split
  · assumption
  · exact Nat.mul_mod_left _ 16

theorem mod32_mod16 (x : Nat) : x % 2 ^ 32 % 16 = x % 16 :=
  Nat.mod_mod_of_dvd x (by norm_num)

theorem scanAllocs_aligned (t : Table) :
    ∀ ao r ao', AlignedKeys t → ao % 16 = 0 →
      scanAllocs t ao r = some ao' → ao' % 16 = 0 := by
  induction t with
  | nil =>
    intro ao r ao' _ hao h
    simp only [scanAllocs, Option.some.injEq] at h
    omega
  | cons p rest ih =>
    rcases p with ⟨k, v⟩
    intro ao r ao' ht hao h
    have hk : k % 16 = 0 := ht (k, v) (List.mem_cons_self _ _)
    simp only [scanAllocs] at h
    split at h
    · exact absurd h (by simp)
    · split at h
      · simp only [Option.some.injEq] at h
        omega
      · refine ih _ r ao' (fun q hq => ht q (List.mem_cons_of_mem _ hq)) ?_ h
        have hrv := roundUp16_mod v
        have := mod32_mod16 (k + roundUp16 v)
        omega

theorem mem_tinsert (t : Table) (k v : Nat) :
    ∀ p ∈ tinsert t k v, p ∈ t ∨ p = (k, v) := by
  induction t with
  | nil =>
    intro p hp
    simp only [tinsert, List.mem_singleton] at hp
    exact Or.inr hp
  | cons q rest ih =>
    rcases q with ⟨k', v'⟩
    intro p hp
    by_cases h1 : k < k'
    · simp only [tinsert, if_pos h1, List.mem_cons] at hp
      rcases hp with hp | hp
      · exact Or.inr hp
      · exact Or.inl (List.mem_cons.mpr hp)
    · by_cases h2 : k = k'
      · simp only [tinsert, if_neg h1, if_pos h2, List.mem_cons] at hp
        rcases hp with hp | hp
        · exact Or.inr hp
        · exact Or.inl (List.mem_cons_of_mem _ hp)
      · simp only [tinsert, if_neg h1, if_neg h2, List.mem_cons] at hp
        rcases hp with hp | hp
        · exact Or.inl (by simp [hp])
        · rcases ih p hp with h | h
          · exact Or.inl (List.mem_cons_of_mem _ h)
          · exact Or.inr h

theorem mem_dealloc (t : Table) (x : Nat) :
    ∀ p ∈ (dealloc_inner t x).2, p ∈ t := by
  induction t with
  | nil => intro p hp; simp [dealloc_inner] at hp
  | cons q rest ih =>
    rcases q with ⟨k, v⟩
    intro p hp
    by_cases hxk : x = k
    · simp only [dealloc_inner, if_pos hxk] at hp
      exact List.mem_cons_of_mem _ hp
    · simp only [dealloc_inner, if_neg hxk, List.mem_cons] at hp
      rcases hp with hp | hp
      · simp [hp]
      · exact List.mem_cons_of_mem _ (ih p hp)

/-- Case analysis on a call of `alloc_inner`: zero request, panic in the
scan, a successful insertion, or exhaustion. -/
theorem alloc_inner_spec (t : Table) (r : Nat) :
    (r = 0 ∧ alloc_inner t r = some (none, t))
    ∨ (r ≠ 0 ∧ scanAllocs t START_OFFSET r = none ∧ alloc_inner t r = none)
    ∨ (∃ ao, r ≠ 0 ∧ scanAllocs t START_OFFSET r = some ao ∧
        (((ao + r) % 2 ^ 32 ≤ END_OFFSET
            ∧ alloc_inner t r = some (some ao, tinsert t ao r))
          ∨ (¬ (ao + r) % 2 ^ 32 ≤ END_OFFSET
            ∧ alloc_inner t r = some (none, t)))) := by
  by_cases h0 : r = 0
  · exact Or.inl ⟨h0, by simp [alloc_inner, h0]⟩
  · cases hscan : scanAllocs t START_OFFSET r with
    | none => exact Or.inr (Or.inl ⟨h0, rfl, by simp [alloc_inner, h0, hscan]⟩)
    | some ao =>
      refine Or.inr (Or.inr ⟨ao, h0, rfl, ?_⟩)
      by_cases hle : (ao + r) % 2 ^ 32 ≤ END_OFFSET
      · exact Or.inl ⟨hle, by simp only [alloc_inner, if_neg h0, hscan]; rw [if_pos hle]⟩
      · exact Or.inr ⟨hle, by simp only [alloc_inner, if_neg h0, hscan]; rw [if_neg hle]⟩

theorem alloc_inner_aligned (t : Table) (r : Nat) (res : Option Nat) (t' : Table)
    (ht : AlignedKeys t) (h : alloc_inner t r = some (res, t')) :
    AlignedKeys t' ∧ (∀ off, res = some off → off % 16 = 0) := by
  rcases alloc_inner_spec t r with ⟨h0, heq⟩ | ⟨h0, hscan, heq⟩
    | ⟨ao, h0, hscan, ⟨hle, heq⟩ | ⟨hle, heq⟩⟩
  · rw [heq] at h
    obtain ⟨hres, ht'⟩ : (none : Option Nat) = res ∧ t = t' := by simpa using h
    subst hres
    subst ht'
    exact ⟨ht, fun off hoff => Option.noConfusion hoff⟩
  · rw [heq] at h
    exact absurd h (by simp)
  · rw [heq] at h
    obtain ⟨hres, ht'⟩ : some ao = res ∧ tinsert t ao r = t' := by simpa using h
    subst hres
    subst ht'
    have hao : ao % 16 = 0 :=
      scanAllocs_aligned t START_OFFSET r ao ht (by norm_num [START_OFFSET]) hscan
    constructor
    · intro p hp
      rcases mem_tinsert t ao r p hp with hmem | hmem
      · exact ht p hmem
      · simp [hmem, hao]
    · intro off hoff
      obtain rfl : ao = off := by simpa using hoff
      exact hao
  · rw [heq] at h
    obtain ⟨hres, ht'⟩ : (none : Option Nat) = res ∧ t = t' := by simpa using h
    subst hres
    subst ht'
    exact ⟨ht, fun off hoff => Option.noConfusion hoff⟩

theorem runOps_aligned (ops : List AllocOp) :
    ∀ t t', AlignedKeys t → runOps t ops = some t' → AlignedKeys t' := by
  induction ops with
  | nil =>
    intro t t' ht h
    simp only [runOps, Option.some.injEq] at h
    exact h ▸ ht
  | cons op ops ih =>
    intro t t' ht h
    cases op with
    | alloc r =>
      cases halloc : alloc_inner t r with
      | none =>
        simp only [runOps, applyOp, halloc] at h
        exact Option.noConfusion h
      | some p =>
        rcases p with ⟨res, tmid⟩
        simp only [runOps, applyOp, halloc] at h
        exact ih tmid t' (alloc_inner_aligned t r res tmid ht halloc).1 h
    | free x =>
      simp only [runOps, applyOp] at h
      exact ih _ t' (fun p hp => ht p (mem_dealloc t x p hp)) h

theorem reachable_aligned (t : Table) (ht : Reachable t) : AlignedKeys t := by
  obtain ⟨ops, -, hrun⟩ := ht
  exact runOps_aligned ops [] t (fun p hp => absurd hp (List.not_mem_nil p)) hrun

/-! ## Free semantics -/

theorem dealloc_fst_iff (t : Table) (x : Nat) :
    (dealloc_inner t x).1 = true ↔ x ∈ tableKeys t := by
  induction t with
  | nil => simp [dealloc_inner, tableKeys]
  | cons q rest ih =>
    rcases q with ⟨k, v⟩
    by_cases hxk : x = k
    · simp [dealloc_inner, hxk, tableKeys]
    · simp only [dealloc_inner, if_neg hxk]
      rw [ih]
      simp [tableKeys, hxk]

theorem dealloc_not_mem (t : Table) (x : Nat) (h : x ∉ tableKeys t) :
    dealloc_inner t x = (false, t) := by
  induction t with
  | nil => simp [dealloc_inner]
  | cons q rest ih =>
    rcases q with ⟨k, v⟩
    simp only [tableKeys, List.map_cons, List.mem_cons, not_or] at h
    simp only [dealloc_inner, if_neg h.1]
    rw [ih (by simpa [tableKeys] using h.2)]

theorem filter_ne_of_not_mem (t : Table) (x : Nat) (h : x ∉ tableKeys t) :
    t.filter (fun p => p.1 != x) = t := by
  induction t with
  | nil => simp
  | cons q rest ih =>
    rcases q with ⟨k, v⟩
    simp only [tableKeys, List.map_cons, List.mem_cons, not_or] at h
    simp only [List.filter_cons]
    rw [if_pos (by simpa using Ne.symm h.1), ih (by simpa [tableKeys] using h.2)]

theorem dealloc_filter (t : Table) (x : Nat) (hnd : (tableKeys t).Nodup)
    (hx : x ∈ tableKeys t) :
    (dealloc_inner t x).2 = t.filter (fun p => p.1 != x) := by
  induction t with
  | nil => simp [tableKeys] at hx
  | cons q rest ih =>
    rcases q with ⟨k, v⟩
    simp only [tableKeys, List.map_cons, List.nodup_cons] at hnd
    simp only [dealloc_inner, List.filter_cons]
    by_cases hxk : x = k
    · rw [if_pos hxk, if_neg (by simp [hxk])]
      exact (filter_ne_of_not_mem rest x (by rw [hxk]; exact hnd.1)).symm
    · have hx' : x ∈ tableKeys rest := by
        simpa [tableKeys, hxk] using hx
      rw [if_neg hxk, if_pos (by simpa using Ne.symm hxk)]
      simp [ih (by simpa [tableKeys] using hnd.2) hx']

/-! ## Bounded-request packing invariant

Supporting development: as long as every allocation request is at most
`END_OFFSET` (so no `u32` addition can wrap), every reachable table is
packed — ascending aligned offsets with the spec's adjacent-entry gap
inequality — hence live regions never overlap and the overlap assert can
never fire.  Together with the counterexamples above this isolates the
integer-overflow path as the only way to break the allocator. -/

theorem pow32_eq : (2 : ℕ) ^ 32 = 4294967296 := by norm_num

/-- The packing invariant relative to a cursor `c`: entries ascend from
`c`, keys are 16-byte aligned, lengths are positive, every entry ends
inside the arena, and each entry's rounded extent precedes the next. -/
def WF : Nat → Table → Prop
  | _, [] => True
  | c, (k, v) :: rest =>
    c ≤ k ∧ k % 16 = 0 ∧ 0 < v ∧ k + v ≤ END_OFFSET ∧ WF (k + roundUp16 v) rest

theorem roundUp16_le_add (v : Nat) (h : v + 16 < 2 ^ 32) : roundUp16 v ≤ v + 16 := by
  rw [pow32_eq] at h
  unfold roundUp16
  rw [pow32_eq]
  split <;> omega

theorem roundUp16_ge (v : Nat) (h : v + 16 < 2 ^ 32) : v ≤ roundUp16 v := by
  rw [pow32_eq] at h
  unfold roundUp16
  rw [pow32_eq]
  split <;> omega

theorem roundUp16_le_of_le (r g : Nat) (hrg : r ≤ g) (hg : g % 16 = 0)
    (h : r + 16 < 2 ^ 32) : roundUp16 r ≤ g := by
  rw [pow32_eq] at h
  unfold roundUp16
  rw [pow32_eq]
  split <;> omega

theorem roundUp16_pos (v : Nat) (hv : 0 < v) (h : v + 16 < 2 ^ 32) :
    16 ≤ roundUp16 v := by
  rw [pow32_eq] at h
  unfold roundUp16
  rw [pow32_eq]
  split <;> omega

/-- Under the invariant the scan's cursor update cannot wrap. -/
theorem cursor_no_wrap (k v : Nat) (h : k + v ≤ END_OFFSET) :
    (k + roundUp16 v) % 2 ^ 32 = k + roundUp16 v := by
  have hE : END_OFFSET = 65280 := rfl
  have h1 : roundUp16 v ≤ v + 16 := roundUp16_le_add v (by rw [pow32_eq]; omega)
  apply Nat.mod_eq_of_lt
  rw [pow32_eq]
  omega

theorem scanAllocs_ge (t : Table) :
    ∀ c r ao, WF c t → scanAllocs t c r = some ao → c ≤ ao := by
  induction t with
  | nil =>
    intro c r ao _ h
    obtain rfl : c = ao := by simpa [scanAllocs] using h
    exact le_refl c
  | cons q rest ih =>
    rcases q with ⟨k, v⟩
    intro c r ao hwf h
    simp only [WF] at hwf
    obtain ⟨hck, hk16, hv, hkv, hwfr⟩ := hwf
    simp only [scanAllocs] at h
    rw [if_neg (by omega : ¬ k < c), cursor_no_wrap k v hkv] at h
    by_cases hbreak : c < k ∧ r ≤ k - c
    · rw [if_pos hbreak] at h
      obtain rfl : c = ao := by simpa using h
      exact le_refl c
    · rw [if_neg hbreak] at h
      have := ih (k + roundUp16 v) r ao hwfr h
      omega

theorem scanAllocs_le (t : Table) :
    ∀ c r ao, WF c t → c ≤ END_OFFSET + 16 →
      scanAllocs t c r = some ao → ao ≤ END_OFFSET + 16 := by
  induction t with
  | nil =>
    intro c r ao _ hc h
    obtain rfl : c = ao := by simpa [scanAllocs] using h
    exact hc
  | cons q rest ih =>
    rcases q with ⟨k, v⟩
    intro c r ao hwf hc h
    simp only [WF] at hwf
    obtain ⟨hck, hk16, hv, hkv, hwfr⟩ := hwf
    simp only [scanAllocs] at h
    rw [if_neg (by omega : ¬ k < c), cursor_no_wrap k v hkv] at h
    by_cases hbreak : c < k ∧ r ≤ k - c
    · rw [if_pos hbreak] at h
      obtain rfl : c = ao := by simpa using h
      exact hc
    · rw [if_neg hbreak] at h
      have hE : END_OFFSET = 65280 := rfl
      have h1 : roundUp16 v ≤ v + 16 := roundUp16_le_add v (by rw [pow32_eq]; omega)
      exact ih (k + roundUp16 v) r ao hwfr (by omega) h

theorem scanAllocs_wf_ne_none (t : Table) :
    ∀ c r, WF c t → scanAllocs t c r ≠ none := by
  induction t with
  | nil => intro c r _; simp [scanAllocs]
  | cons q rest ih =>
    rcases q with ⟨k, v⟩
    intro c r hwf
    simp only [WF] at hwf
    obtain ⟨hck, hk16, hv, hkv, hwfr⟩ := hwf
    simp only [scanAllocs]
    rw [if_neg (by omega : ¬ k < c), cursor_no_wrap k v hkv]
    by_cases hbreak : c < k ∧ r ≤ k - c
    · rw [if_pos hbreak]
      simp
    · rw [if_neg hbreak]
      exact ih (k + roundUp16 v) r hwfr

/-- First-fit correctness: inserting the scanned offset preserves the
packing invariant.  The hole argument uses that the gap between two
aligned positions is a multiple of 16, so a gap large enough for the raw
request is large enough for its rounded extent. -/
theorem scanAllocs_wf_insert (t : Table) :
    ∀ c r, 0 < r → r ≤ END_OFFSET → c % 16 = 0 → WF c t →
      ∀ ao, scanAllocs t c r = some ao → ao + r ≤ END_OFFSET →
        WF c (tinsert t ao r) := by
  induction t with
  | nil =>
    intro c r hr hrE hc _ ao hscan hle
    obtain rfl : c = ao := by simpa [scanAllocs] using hscan
    simp only [tinsert, WF]
    exact ⟨le_refl c, hc, hr, hle, trivial⟩
  | cons q rest ih =>
    rcases q with ⟨k, v⟩
    intro c r hr hrE hc hwf ao hscan hle
    simp only [WF] at hwf
    obtain ⟨hck, hk16, hv, hkv, hwfr⟩ := hwf
    have hE : END_OFFSET = 65280 := rfl
    simp only [scanAllocs] at hscan
    rw [if_neg (by omega : ¬ k < c), cursor_no_wrap k v hkv] at hscan
    by_cases hbreak : c < k ∧ r ≤ k - c
    · rw [if_pos hbreak] at hscan
      obtain rfl : c = ao := by simpa using hscan
      simp only [tinsert, if_pos hbreak.1, WF]
      have hgap : roundUp16 r ≤ k - c :=
        roundUp16_le_of_le r (k - c) hbreak.2 (by omega) (by rw [pow32_eq]; omega)
      exact ⟨le_refl c, hc, hr, hle, by omega, hk16, hv, hkv, hwfr⟩
    · rw [if_neg hbreak] at hscan
      have hc' : (k + roundUp16 v) % 16 = 0 := by
        have := roundUp16_mod v
        omega
      have hge : k + roundUp16 v ≤ ao := scanAllocs_ge rest (k + roundUp16 v) r ao hwfr hscan
      have h16 : 16 ≤ roundUp16 v := roundUp16_pos v hv (by rw [pow32_eq]; omega)
      have hih := ih (k + roundUp16 v) r hr hrE hc' hwfr ao hscan hle
      simp only [tinsert, if_neg (by omega : ¬ ao < k), if_neg (by omega : ¬ ao = k), WF]
      exact ⟨hck, hk16, hv, hkv, hih⟩

theorem wf_mono (t : Table) (c c' : Nat) (hcc : c ≤ c') (hwf : WF c' t) : WF c t := by
  cases t with
  | nil => simp [WF]
  | cons q rest =>
    rcases q with ⟨k, v⟩
    simp only [WF] at hwf ⊢
    exact ⟨by omega, hwf.2⟩

theorem dealloc_wf (t : Table) :
    ∀ c x, WF c t → WF c (dealloc_inner t x).2 := by
  induction t with
  | nil => intro c x _; simp [dealloc_inner, WF]
  | cons q rest ih =>
    rcases q with ⟨k, v⟩
    intro c x hwf
    simp only [WF] at hwf
    obtain ⟨hck, hk16, hv, hkv, hwfr⟩ := hwf
    by_cases hxk : x = k
    · simp only [dealloc_inner, if_pos hxk]
      exact wf_mono rest c (k + roundUp16 v) (by omega) hwfr
    · simp only [dealloc_inner, if_neg hxk, WF]
      exact ⟨hck, hk16, hv, hkv, ih (k + roundUp16 v) x hwfr⟩

theorem wf_key_lb (t : Table) :
    ∀ c, WF c t → ∀ p ∈ t, c ≤ p.1 := by
  induction t with
  | nil => intro c _ p hp; simp at hp
  | cons q rest ih =>
    rcases q with ⟨k, v⟩
    intro c hwf p hp
    simp only [WF] at hwf
    obtain ⟨hck, hk16, hv, hkv, hwfr⟩ := hwf
    rcases List.mem_cons.mp hp with hp | hp
    · rw [hp]
      exact hck
    · have := ih (k + roundUp16 v) hwfr p hp
      omega

/-- The packing invariant entails the spec's non-overlap property: for
any two entries in list (ascending) order the earlier region ends at or
before the later one starts. -/
theorem wf_no_overlap (t : Table) :
    ∀ c, WF c t → List.Pairwise (fun p q : Nat × Nat => p.1 + p.2 ≤ q.1) t := by
  induction t with
  | nil => intro c _; simp
  | cons q rest ih =>
    rcases q with ⟨k, v⟩
    intro c hwf
    simp only [WF] at hwf
    obtain ⟨hck, hk16, hv, hkv, hwfr⟩ := hwf
    have hE : END_OFFSET = 65280 := rfl
    refine List.Pairwise.cons (fun q hq => ?_) (ih (k + roundUp16 v) hwfr)
    have h1 := wf_key_lb rest (k + roundUp16 v) hwfr q hq
    have h2 : v ≤ roundUp16 v := roundUp16_ge v (by rw [pow32_eq]; omega)
    show k + v ≤ q.1
    omega

/-- An allocation request bounded by the arena never panics and
preserves the packing invariant. -/
theorem alloc_inner_wf (t : Table) (r : Nat) (hrE : r ≤ END_OFFSET)
    (hwf : WF START_OFFSET t) :
    ∀ res t', alloc_inner t r = some (res, t') → WF START_OFFSET t' := by
  intro res t' h
  rcases alloc_inner_spec t r with ⟨h0, heq⟩ | ⟨h0, hscan, heq⟩
    | ⟨ao, h0, hscan, ⟨hle, heq⟩ | ⟨hle, heq⟩⟩
  · rw [heq] at h
    obtain ⟨-, ht'⟩ : (none : Option Nat) = res ∧ t = t' := by simpa using h
    exact ht' ▸ hwf
  · rw [heq] at h
    exact absurd h (by simp)
  · rw [heq] at h
    obtain ⟨-, ht'⟩ : some ao = res ∧ tinsert t ao r = t' := by simpa using h
    have hE : END_OFFSET = 65280 := rfl
    have hao_le : ao ≤ END_OFFSET + 16 :=
      scanAllocs_le t START_OFFSET r ao hwf (by norm_num [START_OFFSET, END_OFFSET]) hscan
    have hmod : (ao + r) % 2 ^ 32 = ao + r :=
      Nat.mod_eq_of_lt (by rw [pow32_eq]; omega)
    rw [hmod] at hle
    refine ht' ▸ scanAllocs_wf_insert t START_OFFSET r ?_ hrE
      (by norm_num [START_OFFSET]) hwf ao hscan hle
    omega
  · rw [heq] at h
    obtain ⟨-, ht'⟩ : (none : Option Nat) = res ∧ t = t' := by simpa using h
    exact ht' ▸ hwf

theorem alloc_inner_wf_ne_none (t : Table) (r : Nat) (hwf : WF START_OFFSET t) :
    alloc_inner t r ≠ none := by
  rcases alloc_inner_spec t r with ⟨h0, heq⟩ | ⟨h0, hscan, heq⟩
    | ⟨ao, h0, hscan, ⟨hle, heq⟩ | ⟨hle, heq⟩⟩
  · simp [heq]
  · exact absurd hscan (scanAllocs_wf_ne_none t START_OFFSET r hwf)
  · simp [heq]
  · simp [heq]

/-- An allocator call sequence whose requests all fit the arena. -/
def safeOp : AllocOp → Bool
  | .alloc r => decide (r ≤ END_OFFSET)
  | .free _ => true

theorem runOps_wf (ops : List AllocOp) :
    ∀ t t', ops.all safeOp = true → WF START_OFFSET t →
      runOps t ops = some t' → WF START_OFFSET t' := by
  induction ops with
  | nil =>
    intro t t' _ hwf h
    simp only [runOps, Option.some.injEq] at h
    exact h ▸ hwf
  | cons op ops ih =>
    intro t t' hall hwf h
    simp only [List.all_cons, Bool.and_eq_true] at hall
    cases op with
    | alloc r =>
      have hrE : r ≤ END_OFFSET := of_decide_eq_true hall.1
      cases halloc : alloc_inner t r with
      | none =>
        simp only [runOps, applyOp, halloc] at h
        exact Option.noConfusion h
      | some p =>
        rcases p with ⟨res, tmid⟩
        simp only [runOps, applyOp, halloc] at h
        exact ih tmid t' hall.2 (alloc_inner_wf t r hrE hwf res tmid halloc) h
    | free x =>
      simp only [runOps, applyOp] at h
      exact ih _ t' hall.2 (dealloc_wf t START_OFFSET x hwf) h

/-- With every request bounded by the arena size, every reachable table
is packed, so no two simultaneously-live regions overlap.  This is the
claimed non-overlap invariant restricted to the overflow-free domain. -/
theorem safe_reachable_no_overlap (ops : List AllocOp) (t : Table)
    (hall : ops.all safeOp = true) (hrun : runOps [] ops = some t) :
    List.Pairwise (fun p q : Nat × Nat => p.1 + p.2 ≤ q.1) t :=
  wf_no_overlap t START_OFFSET (runOps_wf ops [] t hall (by simp [WF]) hrun)

/-- With every request bounded by the arena size, no call sequence can
make the overlap assert fire: `runOps` never panics. -/
theorem safe_runOps_ne_none (ops : List AllocOp) :
    ∀ t, ops.all safeOp = true → WF START_OFFSET t → runOps t ops ≠ none := by
  induction ops with
  | nil => intro t _ _; simp [runOps]
  | cons op ops ih =>
    intro t hall hwf
    simp only [List.all_cons, Bool.and_eq_true] at hall
    cases op with
    | alloc r =>
      have hrE : r ≤ END_OFFSET := of_decide_eq_true hall.1
      cases halloc : alloc_inner t r with
      | none => exact absurd halloc (alloc_inner_wf_ne_none t r hwf)
      | some p =>
        rcases p with ⟨res, tmid⟩
        simp only [runOps, applyOp, halloc]
        exact ih tmid hall.2 (alloc_inner_wf t r hrE hwf res tmid halloc)
    | free x =>
      simp only [runOps, applyOp]
      exact ih _ hall.2 (dealloc_wf t START_OFFSET x hwf)

/-! ## Claim theorems -/

/-- Claim C1 (code bug evaluation): the non-overlap invariant fails on a
reachable table.  The `u32` bounds check in `alloc_inner` wraps, so from
the empty table the two calls `allocate(4294967216)` and `allocate(128)`
succeed and leave the table with live bases 0 and 128 whose regions
overlap: the first entry ends at 0 + 128 = 128 > 80. -/
theorem claim1_overlap_code_bug :
    runOps [] [.alloc 4294967216, .alloc 128] = some [(0, 128), (80, 4294967216)]
    ∧ Reachable [(0, 128), (80, 4294967216)]
    ∧ tableKeys [(0, 128), (80, 4294967216)] = [0, 80]
    ∧ 80 < 0 + 128 :=
  ⟨rfl, ⟨[.alloc 4294967216, .alloc 128], by decide, rfl⟩, rfl, by norm_num⟩

/-- Claim C2 (counterexample): after the seven allocations and
`free(208)` of the spec's concrete scenario, the next `allocate(128)`
returns `Some 912`, not `Some 208`: the freed hole at 208 is only 64
bytes wide (the 208 entry was `allocate(64)`), too small for 128 bytes,
so the allocation comes from the tail.  The earlier results match the
claim exactly. -/
theorem claim2_scenario_counterexample :
    runTrace [] [.alloc 128, .alloc 64, .alloc 256, .alloc 128, .alloc 128,
        .alloc 128, .alloc 65280, .free 208, .alloc 128]
      = some ([.allocRes (some 80), .allocRes (some 208), .allocRes (some 272),
          .allocRes (some 528), .allocRes (some 656), .allocRes (some 784),
          .allocRes none, .freeRes true, .allocRes (some 912)],
          [(80, 128), (272, 256), (528, 128), (656, 128), (784, 128), (912, 128)])
    ∧ (912 : Nat) ≠ 208 :=
  ⟨rfl, by norm_num⟩

/-- Claim C2 (amended): the scenario with the ninth result corrected to
`Some 912`; the remaining calls behave as claimed: `free(656)` returns
`true` and the final `allocate(128)` returns `Some 656`. -/
theorem claim2_scenario_amended :
    runTrace [] [.alloc 128, .alloc 64, .alloc 256, .alloc 128, .alloc 128,
        .alloc 128, .alloc 65280, .free 208, .alloc 128, .free 656, .alloc 128]
      = some ([.allocRes (some 80), .allocRes (some 208), .allocRes (some 272),
          .allocRes (some 528), .allocRes (some 656), .allocRes (some 784),
          .allocRes none, .freeRes true, .allocRes (some 912),
          .freeRes true, .allocRes (some 656)],
          [(80, 128), (272, 256), (528, 128), (656, 128), (784, 128), (912, 128)]) :=
  rfl

/-- Claim C3 (counterexample): the handler does not resume the
sub-devices in the reverse of the suspend order; its trace differs from
the claimed trace (suspend kbd, suspend core, block, resume core,
resume kbd). -/
theorem claim3_resume_order_counterexample :
    suspendResumeTrace ≠
      [.suspendDev .kbd, .suspendDev .core, .suspendUntilResume,
       .resumeDev .core, .resumeDev .kbd] := by
  decide

/-- Claim C3 (amended): the handler suspends the sub-devices in order
kbd, core, blocks on the suspend token, and then resumes them in the
SAME order kbd, core (not the reverse). -/
theorem claim3_resume_order_amended :
    suspendResumeTrace =
      subDevOrder.map SREvent.suspendDev ++ [SREvent.suspendUntilResume]
        ++ subDevOrder.map SREvent.resumeDev :=
  rfl

/-- Claim C4: on every reachable allocation table, every offset returned
by `alloc_inner` is a multiple of 16. -/
theorem claim4_alloc_aligned (t : Table) (ht : Reachable t) (r off : Nat) (t' : Table)
    (h : alloc_inner t r = some (some off, t')) : off % 16 = 0 :=
  (alloc_inner_aligned t r (some off) t' (reachable_aligned t ht) h).2 off rfl

/-- Claim C4 (witness): the empty table is reachable and `allocate(16)`
on it returns offset 80, a multiple of 16. -/
theorem claim4_alloc_aligned_witness :
    Reachable [] ∧ alloc_inner [] 16 = some (some 80, [(80, 16)]) ∧ 80 % 16 = 0 :=
  ⟨⟨[], rfl, rfl⟩, rfl, claim4_alloc_aligned [] ⟨[], rfl, rfl⟩ 16 80 [(80, 16)] rfl⟩

/-- Claim C7: `free(x)` returns `true` exactly when `x` is a live base;
when it returns `false` the table is unchanged; and on a well-formed
table (distinct keys, as a `BTreeMap` guarantees) a successful free
removes exactly the entry with base `x` and keeps every other entry.
The operation is total (it never aborts). -/
theorem claim7_free_semantics (t : Table) (x : Nat) :
    ((dealloc_inner t x).1 = true ↔ x ∈ tableKeys t)
    ∧ (x ∉ tableKeys t → dealloc_inner t x = (false, t))
    ∧ ((tableKeys t).Nodup → x ∈ tableKeys t →
        (dealloc_inner t x).1 = true
        ∧ (dealloc_inner t x).2 = t.filter (fun p => p.1 != x)) :=
  ⟨dealloc_fst_iff t x, dealloc_not_mem t x,
    fun hnd hx => ⟨(dealloc_fst_iff t x).mpr hx, dealloc_filter t x hnd hx⟩⟩

/-- Claim C7 (witness): freeing the live base 96 of a concrete table
succeeds and removes exactly that entry. -/
theorem claim7_free_semantics_witness :
    (dealloc_inner [(80, 16), (96, 4)] 96).1 = true
    ∧ (dealloc_inner [(80, 16), (96, 4)] 96).2
        = List.filter (fun p => p.1 != 96) [(80, 16), (96, 4)] :=
  (claim7_free_semantics [(80, 16), (96, 4)] 96).2.2 (by decide) (by decide)

/-- Claim C5 (code bug evaluation): `allocate` does not return `None` on
every oversized request.  From the empty table the request 4294967216
vastly exceeds the whole arena (END_OFFSET is 65280) yet the wrapping
`u32` bounds check passes and the call returns `Some 80`. -/
theorem claim5_allocate_overflow_code_bug :
    alloc_inner [] 4294967216 = some (some 80, [(80, 4294967216)])
    ∧ END_OFFSET < START_OFFSET + 4294967216 :=
  ⟨rfl, by norm_num [START_OFFSET, END_OFFSET]⟩

/-- Claim C6 (counterexample): pushing `0x7f` through the UART path
immediately after the character `a` does not delete the `a`; the code
normalizes `0x7f` to `0x08` and then appends the backspace character to
the buffer, leaving the two-character buffer `[a, 0x08]`, not `[]`. -/
theorem claim6_backspace_counterexample :
    uartChar [Char.ofNat 97] 0x7f = ([Char.ofNat 97, Char.ofNat 8], false)
    ∧ ([Char.ofNat 97, Char.ofNat 8] : List Char) ≠ [] := by
  constructor
  · decide
  · decide

/-- Claim C6 (amended): the delete code `0x7f` is normalized to the
backspace character `0x08`, which is then appended to the command buffer
like any other printable character; no previous character is deleted. -/
theorem claim6_backspace_amended :
    ∀ cmdline : List Char, uartChar cmdline 0x7f = (cmdline ++ [Char.ofNat 8], false) := by
  intro cmdline
  have hk : uartKey 0x7f = Char.ofNat 8 := by decide
  have h0 : Char.ofNat 8 ≠ Char.ofNat 0 := by decide
  have h13 : Char.ofNat 8 ≠ Char.ofNat 0xd := by decide
  simp [uartChar, hk, h0, h13]

/-- Claim C8 (code bug evaluation): the fatal overlap assert is
reachable.  The overflow bug of C1 reaches the table with entries
(0, 128) and (80, 4294967216); on the next allocation the scan visits
offset 0 with cursor 80, `offset >= alloc_offset` fails, and
`alloc_inner` aborts (modelled as `none`). -/
theorem claim8_assert_reachable_code_bug :
    Reachable [(0, 128), (80, 4294967216)]
    ∧ alloc_inner [(0, 128), (80, 4294967216)] 16 = none
    ∧ runOps [] [.alloc 4294967216, .alloc 128, .alloc 16] = none :=
  ⟨⟨[.alloc 4294967216, .alloc 128], by decide, rfl⟩, rfl, rfl⟩

/-- Claim C9: pushing `c`, `o`, `n`, `n`, carriage-return through the
UART path yields exactly the completed command `conn` with the buffer
cleared afterwards; a carriage return is never appended to the buffer;
a null character is neither appended nor treated as a terminator. -/
theorem claim9_line_termination :
    runUart ([], []) [0x63, 0x6f, 0x6e, 0x6e, 0x0d]
      = ([], [[Char.ofNat 0x63, Char.ofNat 0x6f, Char.ofNat 0x6e, Char.ofNat 0x6e]])
    ∧ (∀ cmdline : List Char, uartChar cmdline 0x0d = (cmdline, true))
    ∧ (∀ cmdline : List Char, uartChar cmdline 0 = (cmdline, false)) := by
  refine ⟨by decide, fun cmdline => ?_, fun cmdline => ?_⟩
  · have hk : uartKey 0x0d = Char.ofNat 0xd := by decide
    have h0 : Char.ofNat 0xd ≠ Char.ofNat 0 := by decide
    simp [uartChar, hk, h0]
  · have hk : uartKey 0 = Char.ofNat 0 := by decide
    simp [uartChar, hk]

/-- Claim C10: the key-matrix path appends every non-carriage-return
character verbatim (carriage return triggers command execution); in
particular a null character and the raw `0x7f` are appended unchanged,
while on the UART path `0x7f` is normalized to `0x08` and a null is
dropped. -/
theorem claim10_matrix_verbatim :
    (∀ (cmdline : List Char) (key : Char), key ≠ Char.ofNat 0xd →
        matrixChar cmdline key = (cmdline ++ [key], false))
    ∧ matrixChar [] (Char.ofNat 0) = ([Char.ofNat 0], false)
    ∧ matrixChar [] (Char.ofNat 0x7f) = ([Char.ofNat 0x7f], false)
    ∧ matrixChar [] (Char.ofNat 0xd) = ([], true)
    ∧ uartChar [] 0x7f = ([Char.ofNat 8], false)
    ∧ uartChar [] 0 = ([], false) := by
  refine ⟨fun cmdline key h => ?_, by decide, by decide, by decide, by decide, by decide⟩
  simp [matrixChar, h]

/-- Claim C10 (witness): the general part of the claim applied to the
letter `a` arriving from the key matrix. -/
theorem claim10_matrix_verbatim_witness :
    matrixChar [] (Char.ofNat 97) = ([Char.ofNat 97], false) :=
  claim10_matrix_verbatim.1 [] (Char.ofNat 97) (by decide)

end UsbTest
